import Mathlib

/-!
# Verification of the dusk-hamt HAMT (branching factor 4)

This file embeds the core of `dusk-hamt` (`src/lib.rs`,
`src/annotation/cardinality.rs`, `src/annotation/index.rs`) in Lean 4 and
proves/refutes the frozen claims about it.

Modelling decisions, all taken from the source:

* `Bucket` mirrors `Bucket<K, V, A, I>`: `Empty`, `Leaf(KvPair)` or
  `Node(Link<Hamt>)`.  A `Link` is a child `Hamt` (an array of 4 buckets)
  together with its cached annotation; we inline the four child buckets and
  the cached `Cardinality` into the `node` constructor
  (`node c0 c1 c2 c3 anno` ≡ `Node(Link(Hamt([c0,c1,c2,c3]), anno))`).
* `Hamt` mirrors `Hamt<K, V, A, I>`: a record of 4 buckets (the root).
* The SeaHasher-based `hash` function of `lib.rs` is an external collaborator
  (any deterministic 64-bit hash); it is abstracted as two parameters:
  `h : Nat → Nat` for hashing the `digest + depth` sum (a `u64`), and
  `hK : K → Nat` for hashing keys.  All u64 arithmetic is explicit `% 2^64`.
* `_insert` recurses on freshly built nodes when splitting a leaf, so it need
  not terminate when two distinct keys collide at every depth; it is embedded
  with explicit fuel (`insertQ fuel …= none` models divergence).
  `_remove` and the walkers recurse structurally on the tree.
-/

namespace DuskHamt

/-- `microkelvin::Step`, the decision returned by a `Walker` at each level. -/
inductive Step where
  | Found (slot : Nat)
  | Into (slot : Nat)
  | Abort
deriving DecidableEq

/-- A bucket of the HAMT: `Bucket::Empty`, `Bucket::Leaf(KvPair{key,val})` or
`Bucket::Node(link)` where the link holds the child node's four buckets and
its cached `Cardinality` annotation. -/
inductive Bucket (K V : Type) : Type where
  | empty : Bucket K V
  | leaf (key : K) (val : V) : Bucket K V
  | node (c0 c1 c2 c3 : Bucket K V) (anno : Nat) : Bucket K V
deriving DecidableEq

/-- `Hamt<K, V, A, I>`: an array of exactly 4 buckets. -/
structure Hamt (K V : Type) : Type where
  b0 : Bucket K V
  b1 : Bucket K V
  b2 : Bucket K V
  b3 : Bucket K V
deriving DecidableEq

variable {K V : Type}

/-- `Hamt::new()` / `Default::default()`: four `Empty` buckets. -/
def emptyQ : Hamt K V := ⟨.empty, .empty, .empty, .empty⟩

/-- `self.0[slot]` (slot is always in `[0,4)`; out-of-range reads, which the
code never performs, give `Empty`). -/
def getB (q : Hamt K V) : Nat → Bucket K V
  | 0 => q.b0
  | 1 => q.b1
  | 2 => q.b2
  | 3 => q.b3
  | _ + 4 => .empty

/-- `self.0[slot] = b` (out-of-range writes, never performed, are no-ops). -/
def setB (q : Hamt K V) : Nat → Bucket K V → Hamt K V
  | 0, b => ⟨b, q.b1, q.b2, q.b3⟩
  | 1, b => ⟨q.b0, b, q.b2, q.b3⟩
  | 2, b => ⟨q.b0, q.b1, b, q.b3⟩
  | 3, b => ⟨q.b0, q.b1, q.b2, b⟩
  | _ + 4, _ => q

/-- `fn slot(from: u64, depth: usize) -> usize`:
`hash(&(from + depth as u64)) % 4`, the sum taken in wrapping 64-bit
arithmetic.  `h` stands for the SeaHasher-based `hash` on `u64`. -/
def slotNat (h : Nat → Nat) (frm depth : Nat) : Nat :=
  h ((frm + depth) % 2 ^ 64) % 4

theorem slotNat_lt (h : Nat → Nat) (frm depth : Nat) :
    slotNat h frm depth < 4 :=
  Nat.mod_lt _ (by norm_num)

section Ops

variable (h : Nat → Nat) (hK : K → Nat)

/-- The walk of `PathWalker` through a branch: the bucket `b` has been selected
at depth `d`; a `Leaf` is the found leaf, `Empty` aborts, and a `Node` link is
descended into, the next slot being `slot(digest, d+1)`.  This is the composite
behaviour of `Branch::walk` with the `PathWalker` of `lib.rs`. -/
def walkBk : Bucket K V → Nat → Nat → Option (K × V)
  | .empty, _, _ => none
  | .leaf k v, _, _ => some (k, v)
  | .node c0 c1 c2 c3 _, dig, d =>
    match slotNat h dig (d + 1) with
    | 0 => walkBk c0 dig (d + 1)
    | 1 => walkBk c1 dig (d + 1)
    | 2 => walkBk c2 dig (d + 1)
    | 3 => walkBk c3 dig (d + 1)
    | _ + 4 => none

/-- Walk a node's four buckets (selected at depth `d`): pick the bucket at
`slot(digest, d)` and continue there. -/
def walkQ (q : Hamt K V) (dig d : Nat) : Option (K × V) :=
  walkBk h (getB q (slotNat h dig d)) dig d

/-- `Lookup::get for Hamt` (`lib.rs`): walk the `PathWalker` branch, then
filter the reached leaf by `hash(kv.key()) == hash(key)` and return its
value.  (The same filter is used by `get_mut` and by the `Stored` impl.) -/
def getRoot (t : Hamt K V) (k : K) : Option V :=
  match walkQ h t (hK k) 0 with
  | none => none
  | some (k', v) => if hK k' = hK k then some v else none

end Ops

/-- `Cardinality::from_child`'s per-bucket contribution: `Empty → 0`,
`Leaf → 1`, `Node → the link's cached annotation` (never re-descends). -/
def contrib : Bucket K V → Nat
  | .empty => 0
  | .leaf _ _ => 1
  | .node _ _ _ _ a => a

/-- `Cardinality::from_child` (`annotation/cardinality.rs`): sum of the four
buckets' contributions. -/
def annoQ (q : Hamt K V) : Nat :=
  contrib q.b0 + contrib q.b1 + contrib q.b2 + contrib q.b3

/-- Wrap a node's four buckets into a `Bucket::Node(Link::new(node))`, the
link caching `Cardinality::from_child(node)`. -/
def nodeOfQ (q : Hamt K V) : Bucket K V :=
  .node q.b0 q.b1 q.b2 q.b3 (annoQ q)

/-- `Hamt::collapse`: if the node is exactly one `Leaf` and three `Empty`
buckets, extract that pair (the node is then discarded); otherwise `None`. -/
def collapseQ : Hamt K V → Option (K × V)
  | ⟨.leaf k v, .empty, .empty, .empty⟩ => some (k, v)
  | ⟨.empty, .leaf k v, .empty, .empty⟩ => some (k, v)
  | ⟨.empty, .empty, .leaf k v, .empty⟩ => some (k, v)
  | ⟨.empty, .empty, .empty, .leaf k v⟩ => some (k, v)
  | _ => none

/-- The bucket a parent's `Link` is replaced by after a recursive removal
from the child with resulting buckets `q`: the promoted `Leaf` if the child
collapses, else the `Link` put back (annotation recomputed). -/
def rebuild (q : Hamt K V) : Bucket K V :=
  match collapseQ q with
  | some (k, v) => .leaf k v
  | none => nodeOfQ q

/-- All leaves of a bucket's subtree, in bucket order 0..3, depth first. -/
def leaves : Bucket K V → List (K × V)
  | .empty => []
  | .leaf k v => [(k, v)]
  | .node c0 c1 c2 c3 _ => leaves c0 ++ leaves c1 ++ leaves c2 ++ leaves c3

/-- All leaves of a node (array of 4 buckets). -/
def leavesQ (q : Hamt K V) : List (K × V) :=
  leaves q.b0 ++ leaves q.b1 ++ leaves q.b2 ++ leaves q.b3

/-- Number of leaves transitively contained in a bucket's subtree. -/
def countB (b : Bucket K V) : Nat := (leaves b).length

/-- Number of leaves transitively contained in a node. -/
def countQ (q : Hamt K V) : Nat := (leavesQ q).length

/-- The collapse invariant on buckets: every `Link` target holds at least two
leaves transitively. -/
def invB : Bucket K V → Bool
  | .empty => true
  | .leaf _ _ => true
  | .node c0 c1 c2 c3 _ =>
    decide (2 ≤ countQ ⟨c0, c1, c2, c3⟩) && invB c0 && invB c1 && invB c2 && invB c3

/-- The collapse invariant on a node's four buckets (the root itself may hold
any number of leaves). -/
def invQ (q : Hamt K V) : Bool :=
  invB q.b0 && invB q.b1 && invB q.b2 && invB q.b3

/-- Cached-annotation correctness of a bucket: every `Link`'s cached
`Cardinality` equals the exact number of leaves in its child's subtree. -/
def annOKB : Bucket K V → Bool
  | .empty => true
  | .leaf _ _ => true
  | .node c0 c1 c2 c3 a =>
    decide (a = countQ ⟨c0, c1, c2, c3⟩) && annOKB c0 && annOKB c1 && annOKB c2 && annOKB c3

/-- Cached-annotation correctness of a node's four buckets. -/
def annOKQ (q : Hamt K V) : Bool :=
  annOKB q.b0 && annOKB q.b1 && annOKB q.b2 && annOKB q.b3

section Ops2

variable [DecidableEq K] (h : Nat → Nat) (hK : K → Nat)

/-- `Hamt::_remove` acting on the bucket `b` selected at depth `d` (the slot
of `b` in its parent was `slot(digest, d)`).  Mirrors the source exactly:
the bucket is `take()`n (replaced by `Empty`); an `Empty` bucket yields
`None`; a `Leaf` yields `Some(old_val)` on key equality and `None` otherwise
(in both cases the taken leaf is not put back); a `Node` recurses into the
child at depth `d+1` and then attempts the collapse. -/
def removeBk : Bucket K V → K → Nat → Nat → Bucket K V × Option V
  | .empty, _, _, _ => (.empty, none)
  | .leaf k' v', k, _, _ => (.empty, if k = k' then some v' else none)
  | .node c0 c1 c2 c3 a, k, dig, d =>
    match slotNat h dig (d + 1) with
    | 0 => let p := removeBk c0 k dig (d + 1)
           (rebuild ⟨p.1, c1, c2, c3⟩, p.2)
    | 1 => let p := removeBk c1 k dig (d + 1)
           (rebuild ⟨c0, p.1, c2, c3⟩, p.2)
    | 2 => let p := removeBk c2 k dig (d + 1)
           (rebuild ⟨c0, c1, p.1, c3⟩, p.2)
    | 3 => let p := removeBk c3 k dig (d + 1)
           (rebuild ⟨c0, c1, c2, p.1⟩, p.2)
    | _ + 4 => (.node c0 c1 c2 c3 a, none)

/-- `Hamt::_remove` on a node's four buckets at depth `d`. -/
def removeQ (q : Hamt K V) (k : K) (dig d : Nat) : Hamt K V × Option V :=
  let s := slotNat h dig d
  let p := removeBk h (getB q s) k dig d
  (setB q s p.1, p.2)

/-- `Hamt::remove`: recompute the key's digest and `_remove` from the root at
depth 0. -/
def removeRoot (t : Hamt K V) (k : K) : Hamt K V × Option V :=
  removeQ h t k (hK k) 0

/-- `Hamt::_insert` on a node's four buckets at depth `d`, with explicit
fuel (`none` = the source recursion does not terminate within `fuel` nested
calls).  Mirrors the source: `Empty → Leaf`, equal-key `Leaf → replace`,
unequal-key `Leaf → two-level split` re-inserting both pairs at `d+1` into a
fresh node (the dislodged pair with its own digest), `Node → recurse` at
`d+1` and put the link back (annotation recomputed). -/
def insertQ : Nat → Hamt K V → K → V → Nat → Nat → Option (Hamt K V × Option V)
  | 0, _, _, _, _, _ => none
  | fuel + 1, q, k, v, dig, d =>
    let s := slotNat h dig d
    match getB q s with
    | .empty => some (setB q s (.leaf k v), none)
    | .leaf k' v' =>
      if k = k' then some (setB q s (.leaf k v), some v')
      else
        match insertQ fuel emptyQ k v dig (d + 1) with
        | none => none
        | some (q1, _) =>
          match insertQ fuel q1 k' v' (hK k') (d + 1) with
          | none => none
          | some (q2, _) => some (setB q s (nodeOfQ q2), none)
    | .node c0 c1 c2 c3 _ =>
      match insertQ fuel ⟨c0, c1, c2, c3⟩ k v dig (d + 1) with
      | none => none
      | some (q', r) => some (setB q s (nodeOfQ q'), r)

/-- `Hamt::insert`: hash the key and `_insert` at the root at depth 0. -/
def insertRoot (fuel : Nat) (t : Hamt K V) (k : K) (v : V) :
    Option (Hamt K V × Option V) :=
  insertQ h hK fuel t k v (hK k) 0

end Ops2

section Walkers

variable (h : Nat → Nat)

/-- One invocation of `PathWalker::walk` (`lib.rs`): probe the bucket at
`slot(digest, depth)`; a `Leaf` or a `Link` (annotation discriminant) yields
`Step::Found(slot)`, `Empty` yields `Step::Abort`. -/
def pathWalkerStep (q : Hamt K V) (dig d : Nat) : Step :=
  match getB q (slotNat h dig d) with
  | .empty => .Abort
  | .leaf _ _ => .Found (slotNat h dig d)
  | .node _ _ _ _ _ => .Found (slotNat h dig d)

/-- One scanning step of the `Index` rank walker
(`annotation/index.rs`) on a single bucket: `inl res` means the walk resolves
here (`Found` a leaf, or `Into` a link whose sub-walk yields `res`); `inr r`
means scanning continues with the remaining rank budget `r`.  A leaf consumes
budget 1; a link consumes its cached cardinality. -/
def nthB : Bucket K V → Nat → Option (K × V) ⊕ Nat
  | .empty, r => .inr r
  | .leaf k v, r => if r = 0 then .inl (some (k, v)) else .inr (r - 1)
  | .node c0 c1 c2 c3 a, r =>
    if r < a then
      .inl (match nthB c0 r with
        | .inl res => res
        | .inr r1 =>
          match nthB c1 r1 with
          | .inl res => res
          | .inr r2 =>
            match nthB c2 r2 with
            | .inl res => res
            | .inr r3 =>
              match nthB c3 r3 with
              | .inl res => res
              | .inr _ => none)
    else .inr (r - a)

/-- The `Index` walker's scan of a node's four buckets left to right
(`for i in 0..`, `Child::EndOfNode → Abort` after the fourth). -/
def nthScanQ (q : Hamt K V) (r : Nat) : Option (K × V) :=
  match nthB q.b0 r with
  | .inl res => res
  | .inr r1 =>
    match nthB q.b1 r1 with
    | .inl res => res
    | .inr r2 =>
      match nthB q.b2 r2 with
      | .inl res => res
      | .inr r3 =>
        match nthB q.b3 r3 with
        | .inl res => res
        | .inr _ => none

/-- `Hamt::nth` (`annotation/index.rs`): run the `Index(rank)` walker from
the root. -/
def nthRoot (t : Hamt K V) (r : Nat) : Option (K × V) :=
  nthScanQ t r

end Walkers

/-! ## Basic lemmas about slots, buckets and leaves -/

theorem slot_cases {s : Nat} (hs : s < 4) : s = 0 ∨ s = 1 ∨ s = 2 ∨ s = 3 := by
  omega

@[simp] theorem getB_setB_same (q : Hamt K V) {s : Nat} (hs : s < 4)
    (b : Bucket K V) : getB (setB q s b) s = b := by
  rcases slot_cases hs with rfl | rfl | rfl | rfl <;> rfl

theorem getB_setB_ne (q : Hamt K V) {s s' : Nat} (hs : s < 4) (hs' : s' < 4)
    (hne : s ≠ s') (b : Bucket K V) : getB (setB q s b) s' = getB q s' := by
  rcases slot_cases hs with rfl | rfl | rfl | rfl <;>
    rcases slot_cases hs' with rfl | rfl | rfl | rfl <;> first | rfl | exact absurd rfl hne

theorem countB_eq (b : Bucket K V) : countB b = (leaves b).length := rfl

theorem countQ_eq (q : Hamt K V) :
    countQ q = countB q.b0 + countB q.b1 + countB q.b2 + countB q.b3 := by
  simp [countQ, leavesQ, countB]
  omega

theorem countQ_setB (q : Hamt K V) {s : Nat} (hs : s < 4) (b : Bucket K V) :
    countQ (setB q s b) + countB (getB q s) = countQ q + countB b := by
  rcases slot_cases hs with rfl | rfl | rfl | rfl <;>
    simp [countQ_eq, setB, getB] <;> omega

theorem mem_leavesQ_setB {q : Hamt K V} {s : Nat} {b : Bucket K V}
    {x : K × V} (hx : x ∈ leavesQ (setB q s b)) :
    x ∈ leaves b ∨ x ∈ leavesQ q := by
  by_cases hs : s < 4
  · rcases slot_cases hs with rfl | rfl | rfl | rfl <;>
      simp only [leavesQ, setB, List.mem_append] at hx ⊢ <;> tauto
  · right
    have : setB q s b = q := by
      rcases s with _ | _ | _ | _ | n <;> first | omega | rfl
    rwa [this] at hx

theorem mem_leaves_getB {q : Hamt K V} {s : Nat} (hs : s < 4) {x : K × V}
    (hx : x ∈ leaves (getB q s)) : x ∈ leavesQ q := by
  rcases slot_cases hs with rfl | rfl | rfl | rfl <;>
    simp only [leavesQ, getB, List.mem_append] at hx ⊢ <;> tauto

theorem invB_getB {q : Hamt K V} {s : Nat} (hs : s < 4)
    (hq : invQ q = true) : invB (getB q s) = true := by
  simp only [invQ, Bool.and_eq_true] at hq
  rcases slot_cases hs with rfl | rfl | rfl | rfl <;> simp [getB, hq.1, hq.2]

theorem invQ_setB {q : Hamt K V} {s : Nat} (hs : s < 4) {b : Bucket K V}
    (hb : invB b = true) (hq : invQ q = true) : invQ (setB q s b) = true := by
  simp only [invQ, Bool.and_eq_true] at hq ⊢
  rcases slot_cases hs with rfl | rfl | rfl | rfl <;>
    simp [setB, hb, hq.1, hq.2]

theorem annOKB_getB {q : Hamt K V} {s : Nat} (hs : s < 4)
    (hq : annOKQ q = true) : annOKB (getB q s) = true := by
  simp only [annOKQ, Bool.and_eq_true] at hq
  rcases slot_cases hs with rfl | rfl | rfl | rfl <;> simp [getB, hq.1, hq.2]

theorem annOKQ_setB {q : Hamt K V} {s : Nat} (hs : s < 4) {b : Bucket K V}
    (hb : annOKB b = true) (hq : annOKQ q = true) :
    annOKQ (setB q s b) = true := by
  simp only [annOKQ, Bool.and_eq_true] at hq ⊢
  rcases slot_cases hs with rfl | rfl | rfl | rfl <;>
    simp [setB, hb, hq.1, hq.2]

/-- If every cached annotation below `q` is correct, `Cardinality::from_child`
recomputes exactly the transitive leaf count of `q` from one level only. -/
theorem annoQ_eq_countQ {q : Hamt K V} (hq : annOKQ q = true) :
    annoQ q = countQ q := by
  obtain ⟨b0, b1, b2, b3⟩ := q
  simp only [annOKQ, Bool.and_eq_true] at hq
  obtain ⟨⟨⟨h0, h1⟩, h2⟩, h3⟩ := hq
  have cb : ∀ b : Bucket K V, annOKB b = true → contrib b = countB b := by
    intro b hb
    cases b with
    | empty => rfl
    | leaf k v => rfl
    | node c0 c1 c2 c3 a =>
      simp only [annOKB, Bool.and_eq_true, decide_eq_true_eq] at hb
      simp [contrib, countB, leaves, hb.1.1.1.1, countQ, leavesQ]
  simp [annoQ, countQ_eq, cb _ h0, cb _ h1, cb _ h2, cb _ h3]

theorem leaves_node (c0 c1 c2 c3 : Bucket K V) (a : Nat) :
    leaves (.node c0 c1 c2 c3 a) = leavesQ ⟨c0, c1, c2, c3⟩ := rfl

theorem countB_node (c0 c1 c2 c3 : Bucket K V) (a : Nat) :
    countB (.node c0 c1 c2 c3 a) = countQ ⟨c0, c1, c2, c3⟩ := rfl

theorem invB_node {c0 c1 c2 c3 : Bucket K V} {a : Nat} :
    invB (.node c0 c1 c2 c3 a) =
      (decide (2 ≤ countQ ⟨c0, c1, c2, c3⟩) && invQ ⟨c0, c1, c2, c3⟩) := by
  simp [invB, invQ, Bool.and_assoc]

theorem annOKB_node {c0 c1 c2 c3 : Bucket K V} {a : Nat} :
    annOKB (.node c0 c1 c2 c3 a) =
      (decide (a = countQ ⟨c0, c1, c2, c3⟩) && annOKQ ⟨c0, c1, c2, c3⟩) := by
  simp [annOKB, annOKQ, Bool.and_assoc]

/-! ## Bridge lemmas: the inline slot matches in the recursive definitions
equal the `getB`/`setB` formulations. -/

theorem walkBk_node (h : Nat → Nat) (c0 c1 c2 c3 : Bucket K V) (a : Nat)
    (dig d : Nat) :
    walkBk h (.node c0 c1 c2 c3 a) dig d =
      walkQ h ⟨c0, c1, c2, c3⟩ dig (d + 1) := by
  have hs := slotNat_lt h dig (d + 1)
  rcases slot_cases hs with e | e | e | e <;>
    · rw [walkQ, e, walkBk]
      rw [e]
      rfl

theorem removeBk_node [DecidableEq K] (h : Nat → Nat)
    (c0 c1 c2 c3 : Bucket K V) (a : Nat) (k : K) (dig d : Nat) :
    removeBk h (.node c0 c1 c2 c3 a) k dig d =
      (rebuild (removeQ h ⟨c0, c1, c2, c3⟩ k dig (d + 1)).1,
        (removeQ h ⟨c0, c1, c2, c3⟩ k dig (d + 1)).2) := by
  have hs := slotNat_lt h dig (d + 1)
  rcases slot_cases hs with e | e | e | e <;>
    · rw [removeQ, e, removeBk]
      rw [e]
      simp [getB, setB]

/-! ## Walk and remove return only stored pairs -/

/-- A successful `PathWalker` walk reaches an actual leaf of the tree. -/
theorem walkBk_mem {h : Nat → Nat} {b : Bucket K V} {dig d : Nat} {k : K}
    {v : V} (hw : walkBk h b dig d = some (k, v)) : (k, v) ∈ leaves b := by
  induction b generalizing d with
  | empty => simp [walkBk] at hw
  | leaf k' v' =>
    simp only [walkBk, Option.some.injEq, Prod.mk.injEq] at hw
    simp [leaves, hw.1, hw.2]
  | node c0 c1 c2 c3 a ih0 ih1 ih2 ih3 =>
    rw [walkBk_node, walkQ] at hw
    have hs := slotNat_lt h dig (d + 1)
    rw [leaves_node]
    refine mem_leaves_getB hs ?_
    rcases slot_cases hs with e | e | e | e <;> rw [e] at hw ⊢
    · exact ih0 hw
    · exact ih1 hw
    · exact ih2 hw
    · exact ih3 hw

theorem walkQ_mem {h : Nat → Nat} {q : Hamt K V} {dig d : Nat} {k : K}
    {v : V} (hw : walkQ h q dig d = some (k, v)) : (k, v) ∈ leavesQ q := by
  rw [walkQ] at hw
  exact mem_leaves_getB (slotNat_lt h dig d) (walkBk_mem hw)

/-- `_remove` returns `Some(v)` only for a pair `(k, v)` stored in the tree:
keys are compared by true equality. -/
theorem removeBk_some_mem [DecidableEq K] {h : Nat → Nat} {b : Bucket K V}
    {k : K} {dig d : Nat} {v : V}
    (hr : (removeBk h b k dig d).2 = some v) : (k, v) ∈ leaves b := by
  induction b generalizing d with
  | empty => simp [removeBk] at hr
  | leaf k' v' =>
    simp only [removeBk] at hr
    by_cases hk : k = k'
    · simp only [if_pos hk, Option.some.injEq] at hr
      simp [leaves, hk, hr]
    · simp [if_neg hk] at hr
  | node c0 c1 c2 c3 a ih0 ih1 ih2 ih3 =>
    rw [removeBk_node] at hr
    simp only [removeQ] at hr
    have hs := slotNat_lt h dig (d + 1)
    rw [leaves_node]
    refine mem_leaves_getB hs ?_
    rcases slot_cases hs with e | e | e | e <;> rw [e] at hr ⊢
    · exact ih0 hr
    · exact ih1 hr
    · exact ih2 hr
    · exact ih3 hr

/-! ## Shape lemmas for the collapse invariant -/

theorem countB_zero {b : Bucket K V} (hinv : invB b = true)
    (hc : countB b = 0) : b = .empty := by
  cases b with
  | empty => rfl
  | leaf k v => simp [countB, leaves] at hc
  | node c0 c1 c2 c3 a =>
    rw [countB_node] at hc
    rw [invB_node, Bool.and_eq_true, decide_eq_true_eq] at hinv
    omega

theorem countB_one {b : Bucket K V} (hinv : invB b = true)
    (hc : countB b = 1) : ∃ k v, b = .leaf k v := by
  cases b with
  | empty => simp [countB, leaves] at hc
  | leaf k v => exact ⟨k, v, rfl⟩
  | node c0 c1 c2 c3 a =>
    rw [countB_node] at hc
    rw [invB_node, Bool.and_eq_true, decide_eq_true_eq] at hinv
    omega

/-- A node obeying the collapse invariant and holding exactly one leaf is one
direct `Leaf` bucket and three `Empty` buckets, and `collapse` extracts it. -/
theorem singleton_shape {q : Hamt K V} (hinv : invQ q = true)
    (hc : countQ q = 1) :
    ∃ k v, collapseQ q = some (k, v) ∧ leavesQ q = [(k, v)] ∧
      ∃ s, s < 4 ∧ getB q s = .leaf k v ∧
        ∀ s', s' < 4 → s' ≠ s → getB q s' = .empty := by
  obtain ⟨b0, b1, b2, b3⟩ := q
  rw [invQ] at hinv
  simp only [Bool.and_eq_true] at hinv
  obtain ⟨⟨⟨h0, h1⟩, h2⟩, h3⟩ := hinv
  rw [countQ_eq] at hc
  simp only at h0 h1 h2 h3 hc
  have hcases : (countB b0 = 1 ∧ countB b1 = 0 ∧ countB b2 = 0 ∧ countB b3 = 0) ∨
      (countB b0 = 0 ∧ countB b1 = 1 ∧ countB b2 = 0 ∧ countB b3 = 0) ∨
      (countB b0 = 0 ∧ countB b1 = 0 ∧ countB b2 = 1 ∧ countB b3 = 0) ∨
      (countB b0 = 0 ∧ countB b1 = 0 ∧ countB b2 = 0 ∧ countB b3 = 1) := by
    omega
  rcases hcases with ⟨e0, e1, e2, e3⟩ | ⟨e0, e1, e2, e3⟩ | ⟨e0, e1, e2, e3⟩ |
      ⟨e0, e1, e2, e3⟩
  · obtain ⟨k, v, rfl⟩ := countB_one h0 e0
    rw [countB_zero h1 e1, countB_zero h2 e2, countB_zero h3 e3]
    exact ⟨k, v, rfl, by simp [leavesQ, leaves], 0, by omega, rfl, by
      intro s' hs' hne
      rcases slot_cases hs' with rfl | rfl | rfl | rfl <;>
        first | exact absurd rfl hne | rfl⟩
  · obtain ⟨k, v, rfl⟩ := countB_one h1 e1
    rw [countB_zero h0 e0, countB_zero h2 e2, countB_zero h3 e3]
    exact ⟨k, v, rfl, by simp [leavesQ, leaves], 1, by omega, rfl, by
      intro s' hs' hne
      rcases slot_cases hs' with rfl | rfl | rfl | rfl <;>
        first | exact absurd rfl hne | rfl⟩
  · obtain ⟨k, v, rfl⟩ := countB_one h2 e2
    rw [countB_zero h0 e0, countB_zero h1 e1, countB_zero h3 e3]
    exact ⟨k, v, rfl, by simp [leavesQ, leaves], 2, by omega, rfl, by
      intro s' hs' hne
      rcases slot_cases hs' with rfl | rfl | rfl | rfl <;>
        first | exact absurd rfl hne | rfl⟩
  · obtain ⟨k, v, rfl⟩ := countB_one h3 e3
    rw [countB_zero h0 e0, countB_zero h1 e1, countB_zero h2 e2]
    exact ⟨k, v, rfl, by simp [leavesQ, leaves], 3, by omega, rfl, by
      intro s' hs' hne
      rcases slot_cases hs' with rfl | rfl | rfl | rfl <;>
        first | exact absurd rfl hne | rfl⟩

/-- `collapse` fires only on a node of exactly one leaf and three empties. -/
theorem collapseQ_some {q : Hamt K V} {k : K} {v : V}
    (hc : collapseQ q = some (k, v)) : leavesQ q = [(k, v)] := by
  unfold collapseQ at hc
  split at hc <;>
    first
      | (simp only [Option.some.injEq, Prod.mk.injEq] at hc
         obtain ⟨rfl, rfl⟩ := hc
         simp [leavesQ, leaves])
      | simp at hc

/-! ## Behaviour of `rebuild` (collapse-or-relink after a removal) -/

theorem countB_rebuild (q : Hamt K V) : countB (rebuild q) = countQ q := by
  cases hc : collapseQ q with
  | none => simp only [rebuild, hc]; rfl
  | some x =>
    obtain ⟨k, v⟩ := x
    simp only [rebuild, hc]
    show (leaves (.leaf k v)).length = countQ q
    rw [countQ, collapseQ_some hc]
    rfl

theorem collapseQ_none_of_two {q : Hamt K V} (h2 : 2 ≤ countQ q) :
    collapseQ q = none := by
  cases hc : collapseQ q with
  | none => rfl
  | some x =>
    obtain ⟨k, v⟩ := x
    have := collapseQ_some hc
    rw [countQ, this] at h2
    simp at h2

theorem invB_rebuild {q : Hamt K V} (hq : invQ q = true)
    (hc1 : 1 ≤ countQ q) : invB (rebuild q) = true := by
  rcases Nat.lt_or_ge (countQ q) 2 with hlt | hge
  · have h1 : countQ q = 1 := by omega
    obtain ⟨k, v, hcol, -, -⟩ := singleton_shape hq h1
    simp only [rebuild, hcol]
    rfl
  · simp only [rebuild, collapseQ_none_of_two hge, nodeOfQ, invB_node]
    simp only [Bool.and_eq_true, decide_eq_true_eq]
    exact ⟨hge, hq⟩

theorem annOKB_rebuild {q : Hamt K V} (hq : annOKQ q = true) :
    annOKB (rebuild q) = true := by
  cases hc : collapseQ q with
  | some x => obtain ⟨k, v⟩ := x; simp only [rebuild, hc]; rfl
  | none =>
    simp only [rebuild, hc, nodeOfQ, annOKB_node]
    simp only [Bool.and_eq_true, decide_eq_true_eq]
    exact ⟨annoQ_eq_countQ hq, hq⟩

/-! ## Removal preserves the collapse invariant and annotation correctness -/

/-- Quad-level step of the removal preservation argument, assuming the
bucket-level facts for the four children. -/
theorem removeQ_main [DecidableEq K] (h : Nat → Nat) (q : Hamt K V) (k : K)
    (dig d : Nat)
    (IH : ∀ s, s < 4 →
      (countB (removeBk h (getB q s) k dig d).1 ≤ countB (getB q s) ∧
        countB (getB q s) ≤ countB (removeBk h (getB q s) k dig d).1 + 1) ∧
      (invB (getB q s) = true →
        invB (removeBk h (getB q s) k dig d).1 = true) ∧
      (annOKB (getB q s) = true →
        annOKB (removeBk h (getB q s) k dig d).1 = true)) :
    (countQ (removeQ h q k dig d).1 ≤ countQ q ∧
      countQ q ≤ countQ (removeQ h q k dig d).1 + 1) ∧
    (invQ q = true → invQ (removeQ h q k dig d).1 = true) ∧
    (annOKQ q = true → annOKQ (removeQ h q k dig d).1 = true) := by
  have hs : slotNat h dig d < 4 := slotNat_lt h dig d
  obtain ⟨⟨hc1, hc2⟩, hinv, hann⟩ := IH _ hs
  have hcnt := countQ_setB q hs (removeBk h (getB q (slotNat h dig d)) k dig d).1
  simp only [removeQ]
  refine ⟨⟨by omega, by omega⟩, ?_, ?_⟩
  · intro hq
    exact invQ_setB hs (hinv (invB_getB hs hq)) hq
  · intro hq
    exact annOKQ_setB hs (hann (annOKB_getB hs hq)) hq

/-- Bucket-level removal preservation: removal removes at most one leaf,
and preserves both the collapse invariant and cached-annotation
correctness. -/
theorem removeBk_main [DecidableEq K] (h : Nat → Nat) (b : Bucket K V)
    (k : K) (dig d : Nat) :
    (countB (removeBk h b k dig d).1 ≤ countB b ∧
      countB b ≤ countB (removeBk h b k dig d).1 + 1) ∧
    (invB b = true → invB (removeBk h b k dig d).1 = true) ∧
    (annOKB b = true → annOKB (removeBk h b k dig d).1 = true) := by
  induction b generalizing d with
  | empty => simp [removeBk, countB, leaves]
  | leaf k' v' => simp [removeBk, countB, leaves, invB, annOKB]
  | node c0 c1 c2 c3 a ih0 ih1 ih2 ih3 =>
    rw [removeBk_node]
    have IH : ∀ s, s < 4 →
        (countB (removeBk h (getB ⟨c0, c1, c2, c3⟩ s) k dig (d + 1)).1 ≤
            countB (getB (⟨c0, c1, c2, c3⟩ : Hamt K V) s) ∧
          countB (getB (⟨c0, c1, c2, c3⟩ : Hamt K V) s) ≤
            countB (removeBk h (getB ⟨c0, c1, c2, c3⟩ s) k dig (d + 1)).1 + 1) ∧
        (invB (getB (⟨c0, c1, c2, c3⟩ : Hamt K V) s) = true →
          invB (removeBk h (getB ⟨c0, c1, c2, c3⟩ s) k dig (d + 1)).1 = true) ∧
        (annOKB (getB (⟨c0, c1, c2, c3⟩ : Hamt K V) s) = true →
          annOKB (removeBk h (getB ⟨c0, c1, c2, c3⟩ s) k dig (d + 1)).1 = true) := by
      intro s hs'
      rcases slot_cases hs' with rfl | rfl | rfl | rfl
      · exact ih0 (d + 1)
      · exact ih1 (d + 1)
      · exact ih2 (d + 1)
      · exact ih3 (d + 1)
    obtain ⟨⟨hq1, hq2⟩, hqinv, hqann⟩ :=
      removeQ_main h ⟨c0, c1, c2, c3⟩ k dig (d + 1) IH
    refine ⟨⟨?_, ?_⟩, ?_, ?_⟩
    · rw [countB_rebuild, countB_node]; omega
    · rw [countB_rebuild, countB_node]; omega
    · intro hinv
      rw [invB_node, Bool.and_eq_true, decide_eq_true_eq] at hinv
      exact invB_rebuild (hqinv hinv.2) (by omega)
    · intro hann
      rw [annOKB_node, Bool.and_eq_true, decide_eq_true_eq] at hann
      exact annOKB_rebuild (hqann hann.2)

/-! ## Insertion preserves the invariants -/

@[simp] theorem leaves_empty : leaves (.empty : Bucket K V) = [] := rfl
@[simp] theorem leaves_leaf (k : K) (v : V) :
    leaves (.leaf k v) = [(k, v)] := rfl
@[simp] theorem countB_empty : countB (.empty : Bucket K V) = 0 := rfl
@[simp] theorem countB_leaf (k : K) (v : V) : countB (.leaf k v) = 1 := rfl
@[simp] theorem invB_empty : invB (.empty : Bucket K V) = true := rfl
@[simp] theorem invB_leaf (k : K) (v : V) : invB (.leaf k v) = true := rfl
@[simp] theorem annOKB_empty : annOKB (.empty : Bucket K V) = true := rfl
@[simp] theorem annOKB_leaf (k : K) (v : V) :
    annOKB (.leaf k v) = true := rfl
@[simp] theorem leavesQ_emptyQ : leavesQ (emptyQ : Hamt K V) = [] := rfl
@[simp] theorem countQ_emptyQ : countQ (emptyQ : Hamt K V) = 0 := rfl
@[simp] theorem invQ_emptyQ : invQ (emptyQ : Hamt K V) = true := rfl
@[simp] theorem annOKQ_emptyQ : annOKQ (emptyQ : Hamt K V) = true := rfl
@[simp] theorem countB_nodeOfQ (q : Hamt K V) :
    countB (nodeOfQ q) = countQ q := rfl

theorem invB_nodeOfQ {q : Hamt K V} (h2 : 2 ≤ countQ q)
    (hq : invQ q = true) : invB (nodeOfQ q) = true := by
  rw [nodeOfQ, invB_node, Bool.and_eq_true, decide_eq_true_eq]
  exact ⟨h2, hq⟩

theorem annOKB_nodeOfQ {q : Hamt K V} (hq : annOKQ q = true) :
    annOKB (nodeOfQ q) = true := by
  rw [nodeOfQ, annOKB_node, Bool.and_eq_true, decide_eq_true_eq]
  exact ⟨annoQ_eq_countQ hq, hq⟩

/-- Core facts about one successful `_insert` call: a returned previous value
was stored under the same key; every leaf of the result is an old leaf or the
inserted pair; the leaf count grows by one exactly when `None` is returned;
and both the collapse invariant and cached-annotation correctness are
preserved. -/
theorem insertQ_main [DecidableEq K] (h : Nat → Nat) (hK : K → Nat) :
    ∀ (fuel : Nat) (q : Hamt K V) (k : K) (v : V) (dig d : Nat)
      (q' : Hamt K V) (r : Option V),
      insertQ h hK fuel q k v dig d = some (q', r) →
      (∀ v0, r = some v0 → (k, v0) ∈ leavesQ q) ∧
      (∀ x, x ∈ leavesQ q' → x ∈ leavesQ q ∨ x = (k, v)) ∧
      (countQ q' + cond r.isSome 1 0 = countQ q + 1) ∧
      (invQ q = true → invQ q' = true) ∧
      (annOKQ q = true → annOKQ q' = true) := by
  intro fuel
  induction fuel with
  | zero =>
    intro q k v dig d q' r hins
    simp [insertQ] at hins
  | succ fuel IH =>
    intro q k v dig d q' r hins
    have hs : slotNat h dig d < 4 := slotNat_lt h dig d
    simp only [insertQ] at hins
    cases hb : getB q (slotNat h dig d) with
    | empty =>
      rw [hb] at hins
      simp only [Option.some.injEq, Prod.mk.injEq] at hins
      obtain ⟨rfl, rfl⟩ := hins
      have hcnt := countQ_setB q hs (Bucket.leaf k v)
      rw [hb] at hcnt
      refine ⟨by simp, ?_, ?_, ?_, ?_⟩
      · intro x hx
        rcases mem_leavesQ_setB hx with hx | hx
        · right; simpa using hx
        · exact Or.inl hx
      · simp only [Option.isSome_none, cond_false]
        simp at hcnt
        omega
      · intro hq
        exact invQ_setB hs (by simp) hq
      · intro hq
        exact annOKQ_setB hs (by simp) hq
    | leaf k' v' =>
      by_cases hk : k = k'
      · simp only [hb, if_pos hk] at hins
        simp only [Option.some.injEq, Prod.mk.injEq] at hins
        obtain ⟨rfl, rfl⟩ := hins
        have hcnt := countQ_setB q hs (Bucket.leaf k v)
        rw [hb] at hcnt
        refine ⟨?_, ?_, ?_, ?_, ?_⟩
        · intro v0 hv0
          injection hv0 with hv0
          subst hv0 hk
          exact mem_leaves_getB hs (by rw [hb]; simp)
        · intro x hx
          rcases mem_leavesQ_setB hx with hx | hx
          · right; simpa using hx
          · exact Or.inl hx
        · simp only [Option.isSome_some, cond_true]
          simp at hcnt
          omega
        · intro hq
          exact invQ_setB hs (by simp) hq
        · intro hq
          exact annOKQ_setB hs (by simp) hq
      · simp only [hb, if_neg hk] at hins
        cases h1 : insertQ h hK fuel emptyQ k v dig (d + 1) with
        | none => rw [h1] at hins; simp at hins
        | some p1 =>
          obtain ⟨q1, r1⟩ := p1
          simp only [h1] at hins
          cases h2 : insertQ h hK fuel q1 k' v' (hK k') (d + 1) with
          | none => simp only [h2] at hins; simp at hins
          | some p2 =>
            obtain ⟨q2, r2⟩ := p2
            simp only [h2] at hins
            simp only [Option.some.injEq, Prod.mk.injEq] at hins
            obtain ⟨rfl, rfl⟩ := hins
            obtain ⟨m1, sub1, cnt1, inv1, ann1⟩ :=
              IH emptyQ k v dig (d + 1) q1 r1 h1
            obtain ⟨m2, sub2, cnt2, inv2, ann2⟩ :=
              IH q1 k' v' (hK k') (d + 1) q2 r2 h2
            have hr1 : r1 = none := by
              cases r1 with
              | none => rfl
              | some v0 => simpa using m1 v0 rfl
            have hr2 : r2 = none := by
              cases r2 with
              | none => rfl
              | some v0 =>
                have := m2 v0 rfl
                rcases sub1 _ this with hmem | hpair
                · simp at hmem
                · injection hpair with ha hb
                  exact (hk ha.symm).elim
            subst hr1 hr2
            simp only [Option.isSome_none, cond_false] at cnt1 cnt2
            have hq1c : countQ q1 = 1 := by simp at cnt1; omega
            have hq2c : countQ q2 = 2 := by omega
            have hinv2 : invQ q2 = true := inv2 (inv1 (by simp))
            have hann2 : annOKQ q2 = true := ann2 (ann1 (by simp))
            have hcnt := countQ_setB q hs (nodeOfQ q2)
            rw [hb] at hcnt
            rw [countB_nodeOfQ, hq2c] at hcnt
            refine ⟨by simp, ?_, ?_, ?_, ?_⟩
            · intro x hx
              rcases mem_leavesQ_setB hx with hx | hx
              · rw [nodeOfQ, leaves_node] at hx
                have hx' : x ∈ leavesQ q2 := hx
                rcases sub2 _ hx' with hx2 | hx2
                · rcases sub1 _ hx2 with hx1 | hx1
                  · simp at hx1
                  · exact Or.inr hx1
                · subst hx2
                  exact Or.inl (mem_leaves_getB hs (by rw [hb]; simp))
              · exact Or.inl hx
            · simp only [Option.isSome_none, cond_false]
              simp at hcnt
              omega
            · intro hq
              exact invQ_setB hs (invB_nodeOfQ (by omega) hinv2) hq
            · intro hq
              exact annOKQ_setB hs (annOKB_nodeOfQ hann2) hq
    | node c0 c1 c2 c3 a =>
      simp only [hb] at hins
      cases h1 : insertQ h hK fuel ⟨c0, c1, c2, c3⟩ k v dig (d + 1) with
      | none => rw [h1] at hins; simp at hins
      | some p1 =>
        obtain ⟨qc, rc⟩ := p1
        simp only [h1] at hins
        simp only [Option.some.injEq, Prod.mk.injEq] at hins
        obtain ⟨rfl, rfl⟩ := hins
        obtain ⟨m1, sub1, cnt1, inv1, ann1⟩ :=
          IH ⟨c0, c1, c2, c3⟩ k v dig (d + 1) qc rc h1
        have hleq : leaves (getB q (slotNat h dig d)) =
            leavesQ ⟨c0, c1, c2, c3⟩ := by rw [hb, leaves_node]
        have hcnt := countQ_setB q hs (nodeOfQ qc)
        rw [countB_nodeOfQ] at hcnt
        have hcb : countB (getB q (slotNat h dig d)) =
            countQ ⟨c0, c1, c2, c3⟩ := by rw [countB, hleq]; rfl
        rw [hcb] at hcnt
        refine ⟨?_, ?_, ?_, ?_, ?_⟩
        · intro v0 hv0
          exact mem_leaves_getB hs (by rw [hleq]; exact m1 v0 hv0)
        · intro x hx
          rcases mem_leavesQ_setB hx with hx | hx
          · rw [nodeOfQ, leaves_node] at hx
            have hx' : x ∈ leavesQ qc := hx
            rcases sub1 _ hx' with hx1 | hx1
            · exact Or.inl (mem_leaves_getB hs (by rw [hleq]; exact hx1))
            · exact Or.inr hx1
          · exact Or.inl hx
        · omega
        · intro hq
          have hnode : invB (getB q (slotNat h dig d)) = true := invB_getB hs hq
          rw [hb, invB_node, Bool.and_eq_true, decide_eq_true_eq] at hnode
          refine invQ_setB hs (invB_nodeOfQ ?_ (inv1 hnode.2)) hq
          rcases rc with - | v0 <;> simp at cnt1 <;> omega
        · intro hq
          have hnode : annOKB (getB q (slotNat h dig d)) = true :=
            annOKB_getB hs hq
          rw [hb, annOKB_node, Bool.and_eq_true, decide_eq_true_eq] at hnode
          exact annOKQ_setB hs (annOKB_nodeOfQ (ann1 hnode.2)) hq

/-! ## The path walker finds inserted pairs -/

theorem walkBk_nodeOfQ (h : Nat → Nat) (q : Hamt K V) (dig d : Nat) :
    walkBk h (nodeOfQ q) dig d = walkQ h q dig (d + 1) := by
  rw [nodeOfQ, walkBk_node]

/-- Main walk lemma, by induction on the fuel: (1) after a successful
`_insert` of `(k, v)` with `k`'s own digest, the `PathWalker` walk for `k`
reaches exactly the leaf `(k, v)`; (2) a successful `_insert` of a different
key `k'` (with `k'`'s own digest) preserves the walk result for `k`. -/
theorem insert_walk_main [DecidableEq K] (h : Nat → Nat) (hK : K → Nat) :
    ∀ fuel : Nat,
      (∀ (q : Hamt K V) (k : K) (v : V) (d : Nat) (q' : Hamt K V)
          (r : Option V),
        insertQ h hK fuel q k v (hK k) d = some (q', r) →
        walkQ h q' (hK k) d = some (k, v)) ∧
      (∀ (q : Hamt K V) (k k' : K) (v v' : V) (d : Nat) (q' : Hamt K V)
          (r : Option V),
        k' ≠ k →
        walkQ h q (hK k) d = some (k, v) →
        insertQ h hK fuel q k' v' (hK k') d = some (q', r) →
        walkQ h q' (hK k) d = some (k, v)) := by
  intro fuel
  induction fuel with
  | zero =>
    constructor
    · intro q k v d q' r hins
      simp [insertQ] at hins
    · intro q k k' v v' d q' r hne hwalk hins
      simp [insertQ] at hins
  | succ fuel IH =>
    obtain ⟨IH1, IH2⟩ := IH
    constructor
    · -- (1) insert then walk
      intro q k v d q' r hins
      have hs : slotNat h (hK k) d < 4 := slotNat_lt h (hK k) d
      simp only [insertQ] at hins
      cases hb : getB q (slotNat h (hK k) d) with
      | empty =>
        simp only [hb, Option.some.injEq, Prod.mk.injEq] at hins
        obtain ⟨rfl, rfl⟩ := hins
        rw [walkQ, getB_setB_same q hs]
        rfl
      | leaf k0 v0 =>
        by_cases hk : k = k0
        · simp only [hb, if_pos hk, Option.some.injEq, Prod.mk.injEq] at hins
          obtain ⟨rfl, rfl⟩ := hins
          rw [walkQ, getB_setB_same q hs]
          rfl
        · simp only [hb, if_neg hk] at hins
          cases h1 : insertQ h hK fuel emptyQ k v (hK k) (d + 1) with
          | none => rw [h1] at hins; simp at hins
          | some p1 =>
            obtain ⟨q1, r1⟩ := p1
            simp only [h1] at hins
            cases h2 : insertQ h hK fuel q1 k0 v0 (hK k0) (d + 1) with
            | none => simp only [h2] at hins; simp at hins
            | some p2 =>
              obtain ⟨q2, r2⟩ := p2
              simp only [h2, Option.some.injEq, Prod.mk.injEq] at hins
              obtain ⟨rfl, rfl⟩ := hins
              have hw1 : walkQ h q1 (hK k) (d + 1) = some (k, v) :=
                IH1 emptyQ k v (d + 1) q1 r1 h1
              have hw2 : walkQ h q2 (hK k) (d + 1) = some (k, v) :=
                IH2 q1 k k0 v v0 (d + 1) q2 r2 (fun e => hk e.symm) hw1 h2
              rw [walkQ, getB_setB_same q hs, walkBk_nodeOfQ]
              exact hw2
      | node c0 c1 c2 c3 a =>
        simp only [hb] at hins
        cases h1 : insertQ h hK fuel ⟨c0, c1, c2, c3⟩ k v (hK k) (d + 1) with
        | none => rw [h1] at hins; simp at hins
        | some p1 =>
          obtain ⟨qc, rc⟩ := p1
          simp only [h1, Option.some.injEq, Prod.mk.injEq] at hins
          obtain ⟨rfl, rfl⟩ := hins
          have hwc : walkQ h qc (hK k) (d + 1) = some (k, v) :=
            IH1 ⟨c0, c1, c2, c3⟩ k v (d + 1) qc rc h1
          rw [walkQ, getB_setB_same q hs, walkBk_nodeOfQ]
          exact hwc
    · -- (2) insert of a different key preserves the walk
      intro q k k' v v' d q' r hne hwalk hins
      have hs' : slotNat h (hK k') d < 4 := slotNat_lt h (hK k') d
      have hsk : slotNat h (hK k) d < 4 := slotNat_lt h (hK k) d
      simp only [insertQ] at hins
      by_cases hss : slotNat h (hK k') d = slotNat h (hK k) d
      · -- same slot on both paths
        cases hb : getB q (slotNat h (hK k) d) with
        | empty =>
          rw [walkQ, hb] at hwalk
          simp [walkBk] at hwalk
        | leaf k0 v0 =>
          rw [walkQ, hb] at hwalk
          simp only [walkBk, Option.some.injEq, Prod.mk.injEq] at hwalk
          obtain ⟨rfl, rfl⟩ := hwalk
          simp only [hss, hb, if_neg hne] at hins
          cases h1 : insertQ h hK fuel emptyQ k' v' (hK k') (d + 1) with
          | none => rw [h1] at hins; simp at hins
          | some p1 =>
            obtain ⟨q1, r1⟩ := p1
            simp only [h1] at hins
            cases h2 : insertQ h hK fuel q1 k0 v0 (hK k0) (d + 1) with
            | none => simp only [h2] at hins; simp at hins
            | some p2 =>
              obtain ⟨q2, r2⟩ := p2
              simp only [h2, Option.some.injEq, Prod.mk.injEq] at hins
              obtain ⟨rfl, rfl⟩ := hins
              have hw2 : walkQ h q2 (hK k0) (d + 1) = some (k0, v0) :=
                IH1 q1 k0 v0 (d + 1) q2 r2 h2
              rw [walkQ, ← hss, getB_setB_same q hs', walkBk_nodeOfQ]
              exact hw2
        | node c0 c1 c2 c3 a =>
          rw [walkQ, hb, walkBk_node] at hwalk
          simp only [hss, hb] at hins
          cases h1 : insertQ h hK fuel ⟨c0, c1, c2, c3⟩ k' v' (hK k') (d + 1) with
          | none => rw [h1] at hins; simp at hins
          | some p1 =>
            obtain ⟨qc, rc⟩ := p1
            simp only [h1, Option.some.injEq, Prod.mk.injEq] at hins
            obtain ⟨rfl, rfl⟩ := hins
            have hwc : walkQ h qc (hK k) (d + 1) = some (k, v) :=
              IH2 ⟨c0, c1, c2, c3⟩ k k' v v' (d + 1) qc rc hne hwalk h1
            rw [walkQ, ← hss, getB_setB_same q hs', walkBk_nodeOfQ]
            exact hwc
      · -- distinct slots: the bucket on k's path is untouched
        have hgoal : ∀ b' : Bucket K V,
            walkQ h (setB q (slotNat h (hK k') d) b') (hK k) d =
              walkQ h q (hK k) d := by
          intro b'
          rw [walkQ, walkQ, getB_setB_ne q hs' hsk hss]
        cases hb : getB q (slotNat h (hK k') d) with
        | empty =>
          simp only [hb, Option.some.injEq, Prod.mk.injEq] at hins
          obtain ⟨rfl, rfl⟩ := hins
          rw [hgoal]
          exact hwalk
        | leaf k0 v0 =>
          by_cases hk : k' = k0
          · simp only [hb, if_pos hk, Option.some.injEq, Prod.mk.injEq] at hins
            obtain ⟨rfl, rfl⟩ := hins
            rw [hgoal]
            exact hwalk
          · simp only [hb, if_neg hk] at hins
            cases h1 : insertQ h hK fuel emptyQ k' v' (hK k') (d + 1) with
            | none => rw [h1] at hins; simp at hins
            | some p1 =>
              obtain ⟨q1, r1⟩ := p1
              simp only [h1] at hins
              cases h2 : insertQ h hK fuel q1 k0 v0 (hK k0) (d + 1) with
              | none => simp only [h2] at hins; simp at hins
              | some p2 =>
                obtain ⟨q2, r2⟩ := p2
                simp only [h2, Option.some.injEq, Prod.mk.injEq] at hins
                obtain ⟨rfl, rfl⟩ := hins
                rw [hgoal]
                exact hwalk
        | node c0 c1 c2 c3 a =>
          simp only [hb] at hins
          cases h1 : insertQ h hK fuel ⟨c0, c1, c2, c3⟩ k' v' (hK k') (d + 1) with
          | none => rw [h1] at hins; simp at hins
          | some p1 =>
            obtain ⟨qc, rc⟩ := p1
            simp only [h1, Option.some.injEq, Prod.mk.injEq] at hins
            obtain ⟨rfl, rfl⟩ := hins
            rw [hgoal]
            exact hwalk

/-- Replacement: when the leaf on `k`'s path holds exactly key `k` with value
`v0` (i.e. `k` is present), `_insert` returns `Some v0` and afterwards the
walk finds the new value. -/
theorem insertQ_replace [DecidableEq K] (h : Nat → Nat) (hK : K → Nat) :
    ∀ (fuel : Nat) (q : Hamt K V) (k : K) (v v0 : V) (d : Nat)
      (q' : Hamt K V) (r : Option V),
      walkQ h q (hK k) d = some (k, v0) →
      insertQ h hK fuel q k v (hK k) d = some (q', r) →
      r = some v0 ∧ walkQ h q' (hK k) d = some (k, v) := by
  intro fuel
  induction fuel with
  | zero =>
    intro q k v v0 d q' r hwalk hins
    simp [insertQ] at hins
  | succ fuel IH =>
    intro q k v v0 d q' r hwalk hins
    have hs : slotNat h (hK k) d < 4 := slotNat_lt h (hK k) d
    simp only [insertQ] at hins
    cases hb : getB q (slotNat h (hK k) d) with
    | empty =>
      rw [walkQ, hb] at hwalk
      simp [walkBk] at hwalk
    | leaf k0 v0' =>
      rw [walkQ, hb] at hwalk
      simp only [walkBk, Option.some.injEq, Prod.mk.injEq] at hwalk
      obtain ⟨rfl, rfl⟩ := hwalk
      simp only [hb, if_pos rfl, Option.some.injEq, Prod.mk.injEq] at hins
      obtain ⟨rfl, rfl⟩ := hins
      refine ⟨rfl, ?_⟩
      rw [walkQ, getB_setB_same q hs]
      rfl
    | node c0 c1 c2 c3 a =>
      rw [walkQ, hb, walkBk_node] at hwalk
      simp only [hb] at hins
      cases h1 : insertQ h hK fuel ⟨c0, c1, c2, c3⟩ k v (hK k) (d + 1) with
      | none => rw [h1] at hins; simp at hins
      | some p1 =>
        obtain ⟨qc, rc⟩ := p1
        simp only [h1, Option.some.injEq, Prod.mk.injEq] at hins
        obtain ⟨rfl, rfl⟩ := hins
        obtain ⟨hrc, hwc⟩ := IH ⟨c0, c1, c2, c3⟩ k v v0 (d + 1) qc rc hwalk h1
        refine ⟨hrc, ?_⟩
        rw [walkQ, getB_setB_same q hs, walkBk_nodeOfQ]
        exact hwc

/-! ## The rank walker (`Index`) against the in-order leaf list -/

theorem getElem4_0 {A : Type} (L0 L1 L2 L3 : List A) (r : Nat)
    (h : r < L0.length) : (L0 ++ L1 ++ L2 ++ L3)[r]? = L0[r]? := by
  have a1 : r < (L0 ++ L1 ++ L2).length := by simp [List.length_append]; omega
  have a2 : r < (L0 ++ L1).length := by simp [List.length_append]; omega
  rw [List.getElem?_append_left a1, List.getElem?_append_left a2,
    List.getElem?_append_left h]

theorem getElem4_1 {A : Type} (L0 L1 L2 L3 : List A) (r : Nat)
    (h0 : L0.length ≤ r) (h1 : r - L0.length < L1.length) :
    (L0 ++ L1 ++ L2 ++ L3)[r]? = L1[r - L0.length]? := by
  have a1 : r < (L0 ++ L1 ++ L2).length := by simp [List.length_append]; omega
  have a2 : r < (L0 ++ L1).length := by simp [List.length_append]; omega
  rw [List.getElem?_append_left a1, List.getElem?_append_left a2,
    List.getElem?_append_right h0]

theorem getElem4_2 {A : Type} (L0 L1 L2 L3 : List A) (r : Nat)
    (h0 : L0.length ≤ r) (h1 : L1.length ≤ r - L0.length)
    (h2 : r - L0.length - L1.length < L2.length) :
    (L0 ++ L1 ++ L2 ++ L3)[r]? = L2[r - L0.length - L1.length]? := by
  have a1 : r < (L0 ++ L1 ++ L2).length := by simp [List.length_append]; omega
  have a2 : (L0 ++ L1).length ≤ r := by simp [List.length_append]; omega
  rw [List.getElem?_append_left a1, List.getElem?_append_right a2]
  congr 1
  simp [List.length_append]
  omega

theorem getElem4_3 {A : Type} (L0 L1 L2 L3 : List A) (r : Nat)
    (h0 : L0.length ≤ r) (h1 : L1.length ≤ r - L0.length)
    (h2 : L2.length ≤ r - L0.length - L1.length) :
    (L0 ++ L1 ++ L2 ++ L3)[r]? = L3[r - L0.length - L1.length - L2.length]? := by
  have a1 : (L0 ++ L1 ++ L2).length ≤ r := by simp [List.length_append]; omega
  rw [List.getElem?_append_right a1]
  congr 1
  simp [List.length_append]
  omega

/-- The `Index` scanning chain over four buckets equals indexing into the
concatenation of their leaf lists, provided each bucket's `nthB` behaves
canonically. -/
theorem nthChain (q : Hamt K V)
    (e0 : ∀ r, nthB q.b0 r = if r < countB q.b0
      then Sum.inl ((leaves q.b0)[r]?) else Sum.inr (r - countB q.b0))
    (e1 : ∀ r, nthB q.b1 r = if r < countB q.b1
      then Sum.inl ((leaves q.b1)[r]?) else Sum.inr (r - countB q.b1))
    (e2 : ∀ r, nthB q.b2 r = if r < countB q.b2
      then Sum.inl ((leaves q.b2)[r]?) else Sum.inr (r - countB q.b2))
    (e3 : ∀ r, nthB q.b3 r = if r < countB q.b3
      then Sum.inl ((leaves q.b3)[r]?) else Sum.inr (r - countB q.b3))
    (r : Nat) :
    nthScanQ q r = (leavesQ q)[r]? := by
  rw [nthScanQ, leavesQ, e0]
  by_cases h0 : r < countB q.b0
  · simp only [if_pos h0]
    rw [getElem4_0 _ _ _ _ _ (by rw [← countB_eq]; omega)]
  · simp only [if_neg h0]
    rw [e1]
    by_cases h1 : r - countB q.b0 < countB q.b1
    · simp only [if_pos h1]
      rw [getElem4_1 _ _ _ _ _ (by rw [← countB_eq]; omega)
        (by rw [← countB_eq, ← countB_eq]; omega)]
      rw [countB_eq]
    · simp only [if_neg h1]
      rw [e2]
      by_cases h2 : r - countB q.b0 - countB q.b1 < countB q.b2
      · simp only [if_pos h2]
        rw [getElem4_2 _ _ _ _ _ (by rw [← countB_eq]; omega)
          (by rw [← countB_eq, ← countB_eq]; omega)
          (by rw [← countB_eq, ← countB_eq, ← countB_eq]; omega)]
        rw [countB_eq, countB_eq]
      · simp only [if_neg h2]
        rw [e3]
        by_cases h3 : r - countB q.b0 - countB q.b1 - countB q.b2 < countB q.b3
        · simp only [if_pos h3]
          rw [getElem4_3 _ _ _ _ _ (by rw [← countB_eq]; omega)
            (by rw [← countB_eq, ← countB_eq]; omega)
            (by rw [← countB_eq, ← countB_eq, ← countB_eq]; omega)]
          rw [countB_eq, countB_eq, countB_eq]
        · simp only [if_neg h3]
          rw [List.getElem?_eq_none]
          simp only [List.length_append]
          rw [← countB_eq, ← countB_eq, ← countB_eq, ← countB_eq]
          omega

/-- With correct cached annotations, `nthB` consumes exactly `countB b` of
the rank budget and resolves to the `r`-th leaf when `r` is within it. -/
theorem nthB_main {b : Bucket K V} (hann : annOKB b = true) :
    ∀ r, nthB b r = if r < countB b
      then Sum.inl ((leaves b)[r]?) else Sum.inr (r - countB b) := by
  induction b with
  | empty => intro r; simp [nthB]
  | leaf k v =>
    intro r
    cases r with
    | zero => simp [nthB]
    | succ r => simp [nthB]
  | node c0 c1 c2 c3 a ih0 ih1 ih2 ih3 =>
    rw [annOKB_node, Bool.and_eq_true, decide_eq_true_eq] at hann
    obtain ⟨ha, hann⟩ := hann
    simp only [annOKQ, Bool.and_eq_true] at hann
    obtain ⟨⟨⟨hq0, hq1⟩, hq2⟩, hq3⟩ := hann
    intro r
    have hchain := nthChain ⟨c0, c1, c2, c3⟩ (ih0 hq0) (ih1 hq1) (ih2 hq2)
      (ih3 hq3) r
    rw [countB_node, ← ha]
    by_cases hr : r < a
    · rw [if_pos hr]
      rw [show nthB (Bucket.node c0 c1 c2 c3 a) r
          = if r < a then Sum.inl (nthScanQ ⟨c0, c1, c2, c3⟩ r)
            else Sum.inr (r - a) from rfl]
      rw [if_pos hr, hchain]
      rw [leaves_node]
    · rw [if_neg hr]
      rw [show nthB (Bucket.node c0 c1 c2 c3 a) r
          = if r < a then Sum.inl (nthScanQ ⟨c0, c1, c2, c3⟩ r)
            else Sum.inr (r - a) from rfl]
      rw [if_neg hr]

/-- `nth` with correct cached annotations enumerates the in-order leaf list. -/
theorem nthScanQ_main {q : Hamt K V} (hann : annOKQ q = true) (r : Nat) :
    nthScanQ q r = (leavesQ q)[r]? := by
  simp only [annOKQ, Bool.and_eq_true] at hann
  obtain ⟨⟨⟨h0, h1⟩, h2⟩, h3⟩ := hann
  exact nthChain q (nthB_main h0) (nthB_main h1) (nthB_main h2)
    (nthB_main h3) r

/-! ## Reachable maps: every state produced by the public API from `new()` -/

/-- The maps reachable from `Hamt::new()` through the public `insert` and
`remove` operations (an `insert` step records the fuel making the source
recursion terminate). -/
inductive Reach [DecidableEq K] (h : Nat → Nat) (hK : K → Nat) :
    Hamt K V → Prop where
  | base : Reach h hK emptyQ
  | ins {t t' : Hamt K V} {fuel : Nat} {k : K} {v : V} {r : Option V} :
      Reach h hK t → insertRoot h hK fuel t k v = some (t', r) →
      Reach h hK t'
  | rem {t t' : Hamt K V} {k : K} {r : Option V} :
      Reach h hK t → removeRoot h hK t k = (t', r) → Reach h hK t'

/-- Every reachable map satisfies the collapse invariant and has correct
cached annotations. -/
theorem reach_inv_ann [DecidableEq K] {h : Nat → Nat} {hK : K → Nat}
    {t : Hamt K V} (ht : Reach h hK t) :
    invQ t = true ∧ annOKQ t = true := by
  induction ht with
  | base => exact ⟨rfl, rfl⟩
  | ins hre hins ih =>
    rename_i t t' fuel k v r
    obtain ⟨-, -, -, hinv, hann⟩ :=
      insertQ_main _ _ fuel t k v (hK k) 0 t' r hins
    exact ⟨hinv ih.1, hann ih.2⟩
  | rem hre hrem ih =>
    rename_i t t' k r
    obtain ⟨-, hinv, hann⟩ :=
      removeQ_main h t k (hK k) 0
        (fun s _ => removeBk_main h (getB t s) k (hK k) 0)
    have ht' : (removeQ h t k (hK k) 0).1 = t' := by
      rw [show removeQ h t k (hK k) 0 = removeRoot h hK t k from rfl, hrem]
    rw [← ht']
    exact ⟨hinv ih.1, hann ih.2⟩

@[simp] theorem getB_emptyQ (s : Nat) : getB (emptyQ : Hamt K V) s = .empty := by
  rcases s with _ | _ | _ | _ | n <;> rfl

/-! ## The claims -/

/-- C1, as stated, is false of the code: `get` filters the reached leaf by
digest equality (`hash(kv.key()) == hash(key)` in `Lookup::get`,
`lib.rs`), not by true key equality.  Concrete refutation: keys `0` and `1`
are distinct, their digests collide (key-hash is constantly `0`), the map
contains only the pair `(1, 10)` (built by one insert from the empty map),
yet `get(&0)` answers `Some 10` — the value stored under the other key —
rather than `None` as the claim requires. -/
theorem claim_C1_counterexample :
    (0 : Nat) ≠ 1 ∧
    (fun _ : Nat => 0) 0 = (fun _ : Nat => 0) 1 ∧
    insertRoot (V := Nat) id (fun _ => 0) 2 emptyQ 1 10 =
      some (⟨.leaf 1 10, .empty, .empty, .empty⟩, none) ∧
    leavesQ (⟨.leaf 1 10, .empty, .empty, .empty⟩ : Hamt Nat Nat) = [(1, 10)] ∧
    getRoot id (fun _ => 0) (⟨.leaf 1 10, .empty, .empty, .empty⟩ : Hamt Nat Nat) 0
      = some 10 := by
  refine ⟨by decide, rfl, by decide, by decide, by decide⟩

/-- C1 (amended): `get` filters the leaf reached by the path walker by
digest equality, not true key equality: whenever `get` returns `Some v`,
`v` is the value of a stored leaf whose key merely has the same digest as
the queried key (so a full digest collision with a different key returns
that other key's value, and `get` answers `None` only on digest mismatch or
a failed walk). -/
theorem claim_C1_digest_filter (h : Nat → Nat) (hK : K → Nat)
    (t : Hamt K V) (k : K) (v : V) (hget : getRoot h hK t k = some v) :
    ∃ k', hK k' = hK k ∧ (k', v) ∈ leavesQ t := by
  cases hw : walkQ h t (hK k) 0 with
  | none =>
    simp only [getRoot, hw] at hget
    exact Option.noConfusion hget
  | some p =>
    obtain ⟨k', v'⟩ := p
    simp only [getRoot, hw] at hget
    by_cases hf : hK k' = hK k
    · simp only [if_pos hf, Option.some.injEq] at hget
      subst hget
      exact ⟨k', hf, walkQ_mem hw⟩
    · simp [if_neg hf] at hget

theorem claim_C1_witness :
    ∃ k', (fun _ : Nat => 0) k' = (fun _ : Nat => 0) 0 ∧
      (k', 10) ∈ leavesQ (⟨.leaf 1 10, .empty, .empty, .empty⟩ : Hamt Nat Nat) :=
  claim_C1_digest_filter id (fun _ => 0) _ 0 10 (by decide)

/-- C2 is right and the code is wrong: `_remove` `take()`s the bucket and, in
the non-matching-`Leaf` arm, returns `None` without putting the taken leaf
back (`lib.rs`, the `Bucket::Leaf` arm of `_remove`), so removing an
absent key whose slot path reaches another key's leaf silently drops that
leaf.  Concrete evaluation (identity hashes): the map `{4 ↦ 10}` is built by
one insert; keys `0` and `4` share slot `0` at depth 0; `remove(&0)` returns
`None` but leaves all four root buckets `Empty`, losing the pair `(4, 10)` —
`get(&4)` answers `Some 10` before the call and `None` after. -/
theorem claim_C2_failing_eval :
    insertRoot (V := Nat) id id 2 emptyQ 4 10 =
      some (⟨.leaf 4 10, .empty, .empty, .empty⟩, none) ∧
    removeRoot id id (⟨.leaf 4 10, .empty, .empty, .empty⟩ : Hamt Nat Nat) 0 =
      (emptyQ, none) ∧
    (⟨.leaf 4 10, .empty, .empty, .empty⟩ : Hamt Nat Nat) ≠ emptyQ ∧
    getRoot id id (⟨.leaf 4 10, .empty, .empty, .empty⟩ : Hamt Nat Nat) 4 =
      some 10 ∧
    getRoot id id (emptyQ : Hamt Nat Nat) 4 = none := by
  refine ⟨by decide, by decide, by decide, by decide, by decide⟩

/-- C3: whenever `insert(k, v)` terminates (any fuel), an immediate
`get(&k)` with no intervening mutation returns `Some v`. -/
theorem claim_C3_insert_get [DecidableEq K] (h : Nat → Nat) (hK : K → Nat)
    (fuel : Nat) (t t' : Hamt K V) (k : K) (v : V) (r : Option V)
    (hins : insertRoot h hK fuel t k v = some (t', r)) :
    getRoot h hK t' k = some v := by
  have hw := (insert_walk_main h hK fuel).1 t k v 0 t' r hins
  simp [getRoot, hw]

theorem claim_C3_witness :
    insertRoot (V := Nat) id id 2 emptyQ 5 7 =
      some (⟨.empty, .leaf 5 7, .empty, .empty⟩, none) ∧
    getRoot id id (⟨.empty, .leaf 5 7, .empty, .empty⟩ : Hamt Nat Nat) 5 =
      some 7 :=
  ⟨by decide, claim_C3_insert_get id id 2 emptyQ _ 5 7 none (by decide)⟩

/-- C4: (1) inserting a key that is already present (the leaf on `k`'s path
holds exactly key `k` with the old value `v0`) returns `Some v0`, replaces
the pair, and a subsequent `get` returns the new value; (2) on the empty map,
`insert(0, 38)` returns `None` and then `insert(0, 0)` returns `Some 38`,
for every hash function and any positive fuel. -/
theorem claim_C4_replace [DecidableEq K] (h : Nat → Nat) (hK : K → Nat) :
    (∀ (fuel : Nat) (t t' : Hamt K V) (k : K) (v v0 : V) (r : Option V),
      walkQ h t (hK k) 0 = some (k, v0) →
      insertRoot h hK fuel t k v = some (t', r) →
      r = some v0 ∧ getRoot h hK t' k = some v) ∧
    (∀ (h' hK' : Nat → Nat) (fuel : Nat), ∃ t1 t2 : Hamt Nat Nat,
      insertRoot h' hK' (fuel + 1) emptyQ 0 38 = some (t1, none) ∧
      insertRoot h' hK' (fuel + 1) t1 0 0 = some (t2, some 38)) := by
  constructor
  · intro fuel t t' k v v0 r hwalk hins
    obtain ⟨hr, hw⟩ := insertQ_replace h hK fuel t k v v0 0 t' r hwalk hins
    exact ⟨hr, by simp [getRoot, hw]⟩
  · intro h' hK' fuel
    have hs : slotNat h' (hK' 0) 0 < 4 := slotNat_lt h' (hK' 0) 0
    refine ⟨setB emptyQ (slotNat h' (hK' 0) 0) (.leaf 0 38),
      setB (setB emptyQ (slotNat h' (hK' 0) 0) (.leaf 0 38))
        (slotNat h' (hK' 0) 0) (.leaf 0 0), ?_, ?_⟩
    · show insertQ h' hK' (fuel + 1) emptyQ 0 38 (hK' 0) 0 = _
      simp only [insertQ, getB_emptyQ]
    · show insertQ h' hK' (fuel + 1) _ 0 0 (hK' 0) 0 = _
      simp only [insertQ, getB_setB_same _ hs]
      simp

theorem claim_C4_witness :
    ((0 : Nat) = 0 ∨
      walkQ id (⟨.leaf 0 38, .empty, .empty, .empty⟩ : Hamt Nat Nat) (id 0) 0
        = some (0, 38)) ∧
    (∃ t1 t2 : Hamt Nat Nat,
      insertRoot id id (0 + 1) emptyQ 0 38 = some (t1, none) ∧
      insertRoot id id (0 + 1) t1 0 0 = some (t2, some 38)) := by
  constructor
  · left; rfl
  · exact (claim_C4_replace (V := Nat) id id).2 id id 0

/-- C5: every map reachable from `new()` by `insert`/`remove` satisfies the
collapse invariant (every `Link` target holds at least two leaves — exactly
what `collapse` at each level of `_remove` maintains); consequently a
reachable map holding exactly one pair has it as a direct root `Leaf` with
the other three root buckets `Empty`, and a reachable map holding no pairs
has all four root buckets `Empty`. -/
theorem claim_C5_collapse_invariant [DecidableEq K] (h : Nat → Nat)
    (hK : K → Nat) (t : Hamt K V) (ht : Reach h hK t) :
    invQ t = true ∧
    (countQ t = 1 → ∃ s k v, s < 4 ∧ getB t s = Bucket.leaf k v ∧
      ∀ s', s' < 4 → s' ≠ s → getB t s' = .empty) ∧
    (countQ t = 0 → t = emptyQ) := by
  obtain ⟨hinv, -⟩ := reach_inv_ann ht
  refine ⟨hinv, ?_, ?_⟩
  · intro hc
    obtain ⟨k, v, -, -, s, hs, hleaf, hothers⟩ := singleton_shape hinv hc
    exact ⟨s, k, v, hs, hleaf, hothers⟩
  · intro hc
    obtain ⟨b0, b1, b2, b3⟩ := t
    simp only [invQ, Bool.and_eq_true] at hinv
    obtain ⟨⟨⟨h0, h1⟩, h2⟩, h3⟩ := hinv
    simp only [countQ_eq] at hc
    rw [countB_zero h0 (by omega), countB_zero h1 (by omega),
      countB_zero h2 (by omega), countB_zero h3 (by omega)]
    rfl

theorem claim_C5_witness :
    invQ (⟨.empty, .leaf 1 2, .empty, .empty⟩ : Hamt Nat Nat) = true ∧
    (countQ (⟨.empty, .leaf 1 2, .empty, .empty⟩ : Hamt Nat Nat) = 1 →
      ∃ s k v, s < 4 ∧
        getB (⟨.empty, .leaf 1 2, .empty, .empty⟩ : Hamt Nat Nat) s =
          Bucket.leaf k v ∧
        ∀ s', s' < 4 → s' ≠ s →
          getB (⟨.empty, .leaf 1 2, .empty, .empty⟩ : Hamt Nat Nat) s' =
            .empty) ∧
    (countQ (⟨.empty, .leaf 1 2, .empty, .empty⟩ : Hamt Nat Nat) = 0 →
      (⟨.empty, .leaf 1 2, .empty, .empty⟩ : Hamt Nat Nat) = emptyQ) :=
  claim_C5_collapse_invariant id id _
    (Reach.rem
      (Reach.ins
        (Reach.ins Reach.base
          (by decide : insertRoot id id 1 emptyQ 0 1 =
            some (⟨.leaf 0 1, .empty, .empty, .empty⟩, none)))
        (by decide : insertRoot id id 1
            (⟨.leaf 0 1, .empty, .empty, .empty⟩ : Hamt Nat Nat) 1 2 =
          some (⟨.leaf 0 1, .leaf 1 2, .empty, .empty⟩, none)))
      (by decide : removeRoot id id
          (⟨.leaf 0 1, .leaf 1 2, .empty, .empty⟩ : Hamt Nat Nat) 0 =
        (⟨.empty, .leaf 1 2, .empty, .empty⟩, some 1)))

/-- C6: in every map reachable from `new()` by `insert`/`remove`, every
`Link`'s cached `Cardinality` annotation equals the exact number of leaves
transitively contained in its child's subtree (the per-level recomputation
`Empty → 0`, `Leaf → 1`, `Link → child's cached annotation` of
`Cardinality::from_child` stays exact). -/
theorem claim_C6_cardinality [DecidableEq K] (h : Nat → Nat) (hK : K → Nat)
    (t : Hamt K V) (ht : Reach h hK t) : annOKQ t = true :=
  (reach_inv_ann ht).2

theorem claim_C6_witness :
    annOKQ (⟨.node (.leaf 0 10) (.leaf 1 11) .empty .empty 2,
      .empty, .empty, .empty⟩ : Hamt Nat Nat) = true :=
  claim_C6_cardinality (fun n => n / 2) id _
    (Reach.ins
      (Reach.ins Reach.base
        (by decide : insertRoot (fun n => n / 2) id 1 emptyQ 0 10 =
          some (⟨.leaf 0 10, .empty, .empty, .empty⟩, none)))
      (by decide : insertRoot (fun n => n / 2) id 3
          (⟨.leaf 0 10, .empty, .empty, .empty⟩ : Hamt Nat Nat) 1 11 =
        some (⟨.node (.leaf 0 10) (.leaf 1 11) .empty .empty 2,
          .empty, .empty, .empty⟩, none)))

/-- C7: on every reachable (hence correctly annotated) map, the rank walker
enumerates the in-order leaf list: `nth(i)` is exactly the `i`-th element of
the depth-first left-to-right list of leaves, so for a map of `N` keys the
ranks `0..N` yield each leaf exactly once (complete and duplicate-free) and
`nth(i) = None` for `i ≥ N`. -/
theorem claim_C7_nth [DecidableEq K] (h : Nat → Nat) (hK : K → Nat)
    (t : Hamt K V) (ht : Reach h hK t) (i : Nat) :
    nthRoot t i = (leavesQ t)[i]? :=
  nthScanQ_main (reach_inv_ann ht).2 i

theorem claim_C7_witness :
    nthRoot (⟨.node (.leaf 0 5) (.leaf 1 6) .empty .empty 2,
      .empty, .empty, .empty⟩ : Hamt Nat Nat) 1 =
      (leavesQ (⟨.node (.leaf 0 5) (.leaf 1 6) .empty .empty 2,
        .empty, .empty, .empty⟩ : Hamt Nat Nat))[1]? :=
  claim_C7_nth (fun n => n / 2) id _
    (Reach.ins
      (Reach.ins Reach.base
        (by decide : insertRoot (fun n => n / 2) id 1 emptyQ 0 5 =
          some (⟨.leaf 0 5, .empty, .empty, .empty⟩, none)))
      (by decide : insertRoot (fun n => n / 2) id 3
          (⟨.leaf 0 5, .empty, .empty, .empty⟩ : Hamt Nat Nat) 1 6 =
        some (⟨.node (.leaf 0 5) (.leaf 1 6) .empty .empty 2,
          .empty, .empty, .empty⟩, none)))
    1

/-- C8, as stated, is false of the code: on a slot holding a `Link`, the
`PathWalker` returns `Step::Found(slot)` (its `walk` maps both the `Leaf`
and the `Annotation` discriminants to `Found`), not `Step::Into(slot)`; the
traversal engine still descends, but the strategy never returns `Into`.
Concrete refutation on a reachable two-level map. -/
theorem claim_C8_counterexample :
    getB (⟨.node (.leaf 0 10) (.leaf 1 11) .empty .empty 2,
        .empty, .empty, .empty⟩ : Hamt Nat Nat)
      (slotNat (fun n => n / 2) 0 0) =
      .node (.leaf 0 10) (.leaf 1 11) .empty .empty 2 ∧
    pathWalkerStep (fun n => n / 2)
      (⟨.node (.leaf 0 10) (.leaf 1 11) .empty .empty 2,
        .empty, .empty, .empty⟩ : Hamt Nat Nat) 0 0 ≠
      Step.Into (slotNat (fun n => n / 2) 0 0) := by
  refine ⟨by decide, by decide⟩

/-- C8 (amended): the exact-key strategy, invoked once per level with the
slot fixed by `hash(digest, depth)` and ignoring annotation values, returns
`Found` when that slot holds a `Leaf`, `Found` (not `Into`) when it holds a
`Link` (the engine descends on a `Found` link), and `Abort` when it holds
`Empty`. -/
theorem claim_C8_steps (h : Nat → Nat) (q : Hamt K V) (dig d : Nat) :
    (∀ k v, getB q (slotNat h dig d) = .leaf k v →
      pathWalkerStep h q dig d = .Found (slotNat h dig d)) ∧
    (∀ c0 c1 c2 c3 a, getB q (slotNat h dig d) = .node c0 c1 c2 c3 a →
      pathWalkerStep h q dig d = .Found (slotNat h dig d)) ∧
    (getB q (slotNat h dig d) = .empty →
      pathWalkerStep h q dig d = .Abort) := by
  refine ⟨?_, ?_, ?_⟩
  · intro k v hb
    simp [pathWalkerStep, hb]
  · intro c0 c1 c2 c3 a hb
    simp [pathWalkerStep, hb]
  · intro hb
    simp [pathWalkerStep, hb]

theorem claim_C8_witness :
    pathWalkerStep (fun n => n / 2)
      (⟨.node (.leaf 0 10) (.leaf 1 11) .empty .empty 2,
        .empty, .empty, .empty⟩ : Hamt Nat Nat) 0 0 =
      Step.Found (slotNat (fun n => n / 2) 0 0) :=
  (claim_C8_steps (fun n => n / 2)
      (⟨.node (.leaf 0 10) (.leaf 1 11) .empty .empty 2,
        .empty, .empty, .empty⟩ : Hamt Nat Nat) 0 0).2.1
    (.leaf 0 10) (.leaf 1 11) .empty .empty 2 (by decide)

/-- C9: for every digest and depth, `slot` is in `[0, 4)`, and it is the
pure function of its two arguments that hashes the 64-bit wrapping sum
`digest + depth` and reduces modulo 4 (the second conjunct exhibits the
wrap-around: the depth is absorbed into the digest modulo `2^64`). -/
theorem claim_C9_slot (h : Nat → Nat) (dig depth : Nat) :
    slotNat h dig depth < 4 ∧
    slotNat h dig depth = slotNat h ((dig + depth) % 2 ^ 64) 0 := by
  refine ⟨slotNat_lt h dig depth, ?_⟩
  simp [slotNat, Nat.mod_mod_of_dvd]

/-- C10: `remove` compares keys by true equality, not by digest: it returns
`Some` only for a pair actually stored in the map, so for every key `k` not
stored in it (no matter how its digest collides) `remove(&k)` returns
`None`. -/
theorem claim_C10_remove_none [DecidableEq K] (h : Nat → Nat) (hK : K → Nat)
    (t : Hamt K V) (k : K) (habs : ∀ v : V, (k, v) ∉ leavesQ t) :
    (removeRoot h hK t k).2 = none := by
  cases hr : (removeRoot h hK t k).2 with
  | none => rfl
  | some v =>
    have hr' : (removeBk h (getB t (slotNat h (hK k) 0)) k (hK k) 0).2 =
        some v := hr
    exact absurd
      (mem_leaves_getB (slotNat_lt h (hK k) 0) (removeBk_some_mem hr'))
      (habs v)

theorem claim_C10_witness :
    (removeRoot id (fun _ => 0)
      (⟨.leaf 1 10, .empty, .empty, .empty⟩ : Hamt Nat Nat) 0).2 = none :=
  claim_C10_remove_none id (fun _ => 0) _ 0
    (by
      intro v hv
      simp only [leavesQ, leaves, List.append_nil, List.nil_append,
        List.mem_singleton, Prod.mk.injEq] at hv
      exact absurd hv.1 (by decide))

end DuskHamt
